import Mathlib

/-!
Shallow embedding of the two core routines of the `uk-osmap-display` plugin
(`src/main.ts`): the options parser `parseYamlLike` (lines 184-223) and the
GPX track extractor `gpxToPolyline` (lines 240-256).

Strings are modelled as `List Char`.  JavaScript dynamic values are modelled
by the inductive `JSVal`; JavaScript numbers are modelled by `JSNum` with an
exact rational payload plus the special values `inf`, `negInf` and `nan`
(the claims under study concern which of these is produced, never binary
rounding, so the rational payload is adequate).  The semantics of the
JavaScript primitives the source relies on (`String.prototype.trimEnd`,
`trim`, `split(/\r?\n/)`, the two literal regexes, `Number`, `parseFloat`,
`JSON.parse` and `String.prototype.replace(/'/g,'"')`) are embedded
explicitly below, following the ECMAScript and JSON grammars on the
fragment the source exercises.  The DOM collaborators (`DOMParser`,
`getElementsByTagName`, `getAttribute`) are modelled per their DOM
contracts: `getElementsByTagName` returns matching elements in document
order, i.e. preorder; the XML parser collaborator is passed in as a
function returning either a document or a thrown error (`Except`).
-/

abbrev Chars := List Char

/-- Model of a JavaScript number: exact rational, infinities, or NaN. -/
inductive JSNum where
  | fin (q : ℚ)
  | inf
  | negInf
  | nan
deriving DecidableEq

/-- Model of a JavaScript dynamic value as stored in the options record. -/
inductive JSVal where
  | str (s : Chars)
  | number (n : JSNum)
  | bool (b : Bool)
  | null
  | arr (xs : List JSVal)
  | obj (fields : List (Chars × JSVal))

/-- Characters matched by the key class `[A-Za-z0-9_-]` of the entry regex. -/
def isKeyChar (c : Char) : Bool :=
  c.isAlpha || c.isDigit || c == '_' || c == '-'

/-- Characters counted as whitespace by JavaScript (`\s`, `trim`,
`trimStart`, `trimEnd`): ASCII whitespace, NBSP, BOM and the Unicode line
separators.  (The exotic Unicode space separators are omitted; no claim
involves them.) -/
def isJsSpace (c : Char) : Bool :=
  c == ' ' || c == '\t' || c == '\n' || c == '\r' || c == '\x0b' ||
  c == '\x0c' || c == ' ' || c == '﻿' || c == ' ' || c == ' '

/-- Characters the regex metacharacter `.` does not match (no `s` flag). -/
def isDotExcluded (c : Char) : Bool :=
  c == '\n' || c == '\r' || c == ' ' || c == ' '

/-- Whitespace of the JSON grammar (accepted by `JSON.parse`). -/
def isJsonWs (c : Char) : Bool :=
  c == ' ' || c == '\t' || c == '\n' || c == '\r'

/-- Model of `String.prototype.trimStart`. -/
def trimStartL (s : Chars) : Chars := s.dropWhile isJsSpace

/-- Model of `String.prototype.trimEnd`. -/
def trimEndL (s : Chars) : Chars := (s.reverse.dropWhile isJsSpace).reverse

/-- Model of `String.prototype.trim`. -/
def trimL (s : Chars) : Chars := trimEndL (trimStartL s)

/-- Drop one trailing carriage return, if present. -/
def dropCR (l : Chars) : Chars :=
  if l.getLast? = some '\r' then l.dropLast else l

/-- Worker for `jsSplitLines`; `acc` holds the current line reversed. -/
def splitLinesGo : Chars → Chars → List Chars
  | [], acc => [acc.reverse]
  | c :: cs, acc =>
    if c = '\n' then dropCR acc.reverse :: splitLinesGo cs []
    else splitLinesGo cs (c :: acc)

/-- Model of `src.split(/\r?\n/)`: split at every `\n`, each separator
absorbing an immediately preceding `\r`. -/
def jsSplitLines (t : Chars) : List Chars := splitLinesGo t []

/-- Model of the entry regex `^([A-Za-z0-9_-]+):\s*(.*)$` applied to a line
(which contains no `\n`).  It matches iff the line starts with a nonempty
maximal run of key characters immediately followed by `:`; the greedy `\s*`
then absorbs all whitespace after the colon, and `(.*)$` requires the
remaining value to contain no character excluded from `.`. -/
def matchEntry (line : Chars) : Option (Chars × Chars) :=
  let key := line.takeWhile isKeyChar
  match line.dropWhile isKeyChar with
  | ':' :: r =>
    if key.isEmpty then none
    else
      let v := r.dropWhile isJsSpace
      if v.any isDotExcluded then none else some (key, v)
  | _ => none

/-- Model of the truthiness test `lines[i].match(/^\s*-\s+/)` guarding entry
into an array block: optional whitespace, a hyphen, then at least one
whitespace character. -/
def listItemStart (l : Chars) : Bool :=
  match l.dropWhile isJsSpace with
  | '-' :: c :: _ => isJsSpace c
  | _ => false

/-- Model of the consuming regex `^\s*-\s+(.*)$` of the array-block loop,
returning the captured group.  As with `matchEntry`, the greedy `\s+`
absorbs all whitespace after the hyphen and the group must contain no
character excluded from `.`. -/
def matchListItem (l : Chars) : Option Chars :=
  match l.dropWhile isJsSpace with
  | '-' :: c :: r =>
    if isJsSpace c then
      let g := (c :: r).dropWhile isJsSpace
      if g.any isDotExcluded then none else some g
    else none
  | _ => none

/-- Model of the inner `while` loop collecting consecutive array-item lines:
returns the trimmed items and the unconsumed remainder of the line list. -/
def takeItems : List Chars → List Chars × List Chars
  | [] => ([], [])
  | l :: ls =>
    match matchListItem l with
    | none => ([], l :: ls)
    | some g =>
      let p := takeItems ls
      (trimL g :: p.1, p.2)

/-- Model of the bracket test `/^\[.*\]$/` on an (already trimmed) value:
an opening bracket, a final closing bracket, and no `.`-excluded character
in between. -/
def bracketForm (s : Chars) : Bool :=
  match s with
  | '[' :: c :: cs => (c :: cs).getLast? = some ']' && !(c :: cs).dropLast.any isDotExcluded
  | _ => false

/-- Model of `replace(/'/g, '"')` on one character. -/
def squot (c : Char) : Char := if c = '\'' then '"' else c

/-- Numeric value of a digit string (base `b`). -/
def radixVal (b : ℕ) (ds : Chars) : ℕ :=
  ds.foldl (fun a c => a * b + (if c.isDigit then c.toNat - 48 else
    if c.toNat ≥ 97 then c.toNat - 87 else c.toNat - 55)) 0

/-- Decimal digit string value. -/
def digitsVal (ds : Chars) : ℕ := radixVal 10 ds

def isHexDigit (c : Char) : Bool :=
  c.isDigit || ('a' ≤ c && c ≤ 'f') || ('A' ≤ c && c ≤ 'F')

def isOctDigit (c : Char) : Bool := '0' ≤ c && c ≤ '7'

def isBinDigit (c : Char) : Bool := c == '0' || c == '1'

/-- Exact rational value `±(int.frac) * 10^e` of a signed decimal literal
with integer digits `int`, fraction digits `frac` and exponent `e`,
computed with integer arithmetic and one normalising `mkRat` so that the
result evaluates by kernel reduction. -/
def decValue (neg : Bool) (int frac : Chars) (e : ℤ) : ℚ :=
  let m : ℤ := Int.ofNat (digitsVal int * 10 ^ frac.length + digitsVal frac)
  let n : ℤ := if neg then -m else m
  match e with
  | .ofNat k => mkRat (n * Int.ofNat (10 ^ k)) (10 ^ frac.length)
  | .negSucc k => mkRat n (10 ^ frac.length * 10 ^ (k + 1))

/-- Parse an ECMAScript exponent part that must span the whole input
(empty input means exponent 0). -/
def expAll : Chars → Option ℤ
  | [] => some 0
  | c :: r =>
    if c = 'e' ∨ c = 'E' then
      match r with
      | '+' :: ds =>
        if ds ≠ [] ∧ ds.all Char.isDigit then some (digitsVal ds : ℤ) else none
      | '-' :: ds =>
        if ds ≠ [] ∧ ds.all Char.isDigit then some (-(digitsVal ds : ℤ)) else none
      | ds =>
        if ds ≠ [] ∧ ds.all Char.isDigit then some (digitsVal ds : ℤ) else none
    else none

/-- Parse an unsigned ECMAScript decimal literal (`D+ ('.' D*)? Exp?` or
`'.' D+ Exp?`) that must span the whole input, returning its integer
digits, fraction digits and exponent. -/
def decAll (u : Chars) : Option (Chars × Chars × ℤ) :=
  let int := u.takeWhile Char.isDigit
  match u.drop int.length with
  | '.' :: r2 =>
    let frac := r2.takeWhile Char.isDigit
    let r3 := r2.drop frac.length
    if int.isEmpty && frac.isEmpty then none
    else (expAll r3).map (fun e => (int, frac, e))
  | r1 =>
    if int.isEmpty then none
    else (expAll r1).map (fun e => (int, [], e))

/-- Signed `StrDecimalLiteral` (including `Infinity`) spanning the whole
input, as used by `Number(...)`. -/
def decSigned (t : Chars) : JSNum :=
  let p : Bool × Chars :=
    match t with
    | '-' :: r => (true, r)
    | '+' :: r => (false, r)
    | _ => (false, t)
  if p.2 = "Infinity".data then (if p.1 then .negInf else .inf)
  else
    match decAll p.2 with
    | some (int, frac, e) => .fin (decValue p.1 int frac e)
    | none => .nan

/-- Model of ECMAScript `Number(string)` (the `ToNumber` string grammar):
whitespace-trimmed; empty means 0; hex/octal/binary literals carry no sign;
otherwise a signed decimal literal or `Infinity`; anything else is NaN. -/
def jsNumber (s : Chars) : JSNum :=
  match trimL s with
  | [] => .fin 0
  | '0' :: b :: ds =>
    if b = 'x' ∨ b = 'X' then
      (if ds ≠ [] ∧ ds.all isHexDigit then .fin (mkRat (radixVal 16 ds) 1) else .nan)
    else if b = 'o' ∨ b = 'O' then
      (if ds ≠ [] ∧ ds.all isOctDigit then .fin (mkRat (radixVal 8 ds) 1) else .nan)
    else if b = 'b' ∨ b = 'B' then
      (if ds ≠ [] ∧ ds.all isBinDigit then .fin (mkRat (radixVal 2 ds) 1) else .nan)
    else decSigned ('0' :: b :: ds)
  | t => decSigned t

/-- Model of ECMAScript `parseFloat(string)`: skip leading whitespace, then
read the longest prefix forming a signed decimal literal (or `Infinity`);
NaN when no such prefix exists.  Trailing characters are ignored. -/
def jsParseFloat (s : Chars) : JSNum :=
  let t := s.dropWhile isJsSpace
  let p : Bool × Chars :=
    match t with
    | '-' :: r => (true, r)
    | '+' :: r => (false, r)
    | _ => (false, t)
  if "Infinity".data.isPrefixOf p.2 then (if p.1 then .negInf else .inf)
  else
    let int := p.2.takeWhile Char.isDigit
    let r1 := p.2.drop int.length
    let fr : Chars × Chars :=
      match r1 with
      | '.' :: r2 => (r2.takeWhile Char.isDigit, r2.drop (r2.takeWhile Char.isDigit).length)
      | _ => ([], r1)
    if int.isEmpty && fr.1.isEmpty then .nan
    else
      let e : ℤ :=
        match fr.2 with
        | c :: r4 =>
          if c = 'e' ∨ c = 'E' then
            match r4 with
            | '+' :: r5 =>
              (if (r5.takeWhile Char.isDigit).isEmpty then 0
               else (digitsVal (r5.takeWhile Char.isDigit) : ℤ))
            | '-' :: r5 =>
              (if (r5.takeWhile Char.isDigit).isEmpty then 0
               else -(digitsVal (r5.takeWhile Char.isDigit) : ℤ))
            | r5 =>
              (if (r5.takeWhile Char.isDigit).isEmpty then 0
               else (digitsVal (r5.takeWhile Char.isDigit) : ℤ))
          else 0
        | [] => 0
      .fin (decValue p.1 int fr.1 e)

/-- Skip JSON whitespace. -/
def skipWs (s : Chars) : Chars := s.dropWhile isJsonWs

/-- Fraction and exponent tail of a JSON number whose sign and integer
digits have been read, returning the value and the unconsumed rest. -/
def jsonNumTail (neg : Bool) (int : Chars) (r : Chars) : Option (ℚ × Chars) :=
  let fr : Chars × Chars × Bool :=
    match r with
    | '.' :: r2 =>
      let f := r2.takeWhile Char.isDigit
      (f, r2.drop f.length, f.isEmpty)
    | _ => ([], r, false)
  if fr.2.2 then none
  else
    let er : Option (ℤ × Chars) :=
      match fr.2.1 with
      | c :: r4 =>
        if c = 'e' ∨ c = 'E' then
          match r4 with
          | '+' :: r5 =>
            let ds := r5.takeWhile Char.isDigit
            if ds.isEmpty then none else some ((digitsVal ds : ℤ), r5.drop ds.length)
          | '-' :: r5 =>
            let ds := r5.takeWhile Char.isDigit
            if ds.isEmpty then none else some (-(digitsVal ds : ℤ), r5.drop ds.length)
          | r5 =>
            let ds := r5.takeWhile Char.isDigit
            if ds.isEmpty then none else some ((digitsVal ds : ℤ), r5.drop ds.length)
        else some (0, fr.2.1)
      | [] => some (0, [])
    match er with
    | none => none
    | some (e, rest) => some (decValue neg int fr.1 e, rest)

/-- Parse a JSON number (strict JSON grammar: `-? int frac? exp?` with
`int = 0 | [1-9] D*`), returning its value and the unconsumed rest. -/
def jsonNumber (s : Chars) : Option (ℚ × Chars) :=
  let p : Bool × Chars :=
    match s with
    | '-' :: r => (true, r)
    | _ => (false, s)
  match p.2 with
  | c :: r1 =>
    if c = '0' ∨ ¬ c.isDigit then
      if c = '0' then jsonNumTail p.1 ['0'] r1 else none
    else
      jsonNumTail p.1 (c :: r1.takeWhile Char.isDigit) (r1.drop (r1.takeWhile Char.isDigit).length)
  | [] => none

/-- Unescape map for JSON string escapes (other than `\u`). -/
def jsonEscChar (c : Char) : Option Char :=
  if c = '"' then some '"'
  else if c = '\\' then some '\\'
  else if c = '/' then some '/'
  else if c = 'b' then some '\x08'
  else if c = 'f' then some '\x0c'
  else if c = 'n' then some '\n'
  else if c = 'r' then some '\r'
  else if c = 't' then some '\t'
  else none

def hexDigitVal (c : Char) : ℕ :=
  if c.isDigit then c.toNat - 48
  else if 'a' ≤ c then c.toNat - 87 else c.toNat - 55

/-- Parse the body of a JSON string after the opening quote, handling
escapes and rejecting raw control characters. -/
def jsonStringChars : Chars → Option (Chars × Chars)
  | [] => none
  | '"' :: r => some ([], r)
  | '\\' :: e :: r2 =>
    if e = 'u' then
      match r2 with
      | a :: b :: c :: d :: r3 =>
        if [a, b, c, d].all isHexDigit then
          match jsonStringChars r3 with
          | some (cs, rest) =>
            some (Char.ofNat (((hexDigitVal a * 16 + hexDigitVal b) * 16 +
              hexDigitVal c) * 16 + hexDigitVal d) :: cs, rest)
          | none => none
        else none
      | _ => none
    else
      match jsonEscChar e with
      | some ec =>
        match jsonStringChars r2 with
        | some (cs, rest) => some (ec :: cs, rest)
        | none => none
      | none => none
  | c :: r =>
    if c.toNat < 32 then none
    else
      match jsonStringChars r with
      | some (cs, rest) => some (c :: cs, rest)
      | none => none

mutual
/-- Parse one JSON value at the head of `s` (no leading whitespace),
returning the value and the unconsumed rest.  `fuel` bounds recursion
depth; `jsonParse` supplies more fuel than any input can consume. -/
def jsonVal : ℕ → Chars → Option (JSVal × Chars)
  | 0, _ => none
  | _ + 1, [] => none
  | fuel + 1, c :: r =>
    if c = 'n' then
      match c :: r with
      | 'n' :: 'u' :: 'l' :: 'l' :: rest => some (.null, rest)
      | _ => none
    else if c = 't' then
      match c :: r with
      | 't' :: 'r' :: 'u' :: 'e' :: rest => some (.bool true, rest)
      | _ => none
    else if c = 'f' then
      match c :: r with
      | 'f' :: 'a' :: 'l' :: 's' :: 'e' :: rest => some (.bool false, rest)
      | _ => none
    else if c = '"' then
      match jsonStringChars r with
      | some (cs, rest) => some (.str cs, rest)
      | none => none
    else if c = '[' then
      match skipWs r with
      | ']' :: rest => some (.arr [], rest)
      | r1 =>
        match jsonElems fuel r1 with
        | some (xs, rest) => some (.arr xs, rest)
        | none => none
    else if c = '{' then
      match skipWs r with
      | '}' :: rest => some (.obj [], rest)
      | r1 =>
        match jsonMembers fuel r1 with
        | some (fs, rest) => some (.obj fs, rest)
        | none => none
    else
      match jsonNumber (c :: r) with
      | some (q, rest) => some (.number (.fin q), rest)
      | none => none

/-- Parse a nonempty comma-separated JSON element list up to and including
the closing `]`. -/
def jsonElems : ℕ → Chars → Option (List JSVal × Chars)
  | 0, _ => none
  | fuel + 1, s =>
    match jsonVal fuel s with
    | none => none
    | some (v, rest) =>
      match skipWs rest with
      | ',' :: r2 =>
        match jsonElems fuel (skipWs r2) with
        | some (vs, rest2) => some (v :: vs, rest2)
        | none => none
      | ']' :: r2 => some ([v], r2)
      | _ => none

/-- Parse a nonempty JSON object member list up to and including the
closing `}`. -/
def jsonMembers : ℕ → Chars → Option (List (Chars × JSVal) × Chars)
  | 0, _ => none
  | fuel + 1, s =>
    match s with
    | '"' :: r =>
      match jsonStringChars r with
      | some (name, r1) =>
        match skipWs r1 with
        | ':' :: r2 =>
          match jsonVal fuel (skipWs r2) with
          | some (v, rest) =>
            match skipWs rest with
            | ',' :: r3 =>
              match jsonMembers fuel (skipWs r3) with
              | some (fs, rest2) => some ((name, v) :: fs, rest2)
              | none => none
            | '}' :: r3 => some ([(name, v)], r3)
            | _ => none
          | none => none
        | _ => none
      | none => none
    | _ => none
end

/-- Model of `JSON.parse`: one JSON value surrounded only by whitespace. -/
def jsonParse (s : Chars) : Option JSVal :=
  match jsonVal (s.length + 1) (skipWs s) with
  | some (v, rest) => if skipWs rest = [] then some v else none
  | none => none

/-- Model of the assignment `out[key] = v` on a JavaScript object: an
existing key keeps its position and gets the new value, a new key is
appended. -/
def jsSet (out : List (Chars × JSVal)) (k : Chars) (v : JSVal) :
    List (Chars × JSVal) :=
  if out.any (fun kv => kv.1 = k) then
    out.map (fun kv => if kv.1 = k then (k, v) else kv)
  else out ++ [(k, v)]

/-- Classification of a non-array-block entry value, mirroring the final
`if`/`else if` chain of `parseYamlLike`: bracketed values go through
`JSON.parse` after single-quote normalisation (falling back to the raw
string on failure), then exact `"true"`/`"false"`, then `Number`, then the
trimmed string. -/
def classifyScalar (val : Chars) : JSVal :=
  if bracketForm (trimL val) then
    match jsonParse (val.map squot) with
    | some v => v
    | none => .str val
  else if val = "true".data then .bool true
  else if val = "false".data then .bool false
  else
    match jsNumber val with
    | .nan => .str (trimL val)
    | n => .number n

/-- One iteration of the `while` loop of `parseYamlLike` on line `l`:
returns the updated record and the lines still to be processed.  Blank
lines, comment lines and lines not matching the entry regex leave the
record unchanged. -/
def stepLine (l : Chars) (rest : List Chars) (out : List (Chars × JSVal)) :
    List (Chars × JSVal) × List Chars :=
  let line := trimEndL l
  if line.isEmpty || (trimStartL line).headD ' ' == '#' then (out, rest)
  else
    match matchEntry line with
    | none => (out, rest)
    | some (key, val) =>
      if val.isEmpty && (match rest with
                         | nl :: _ => listItemStart nl
                         | [] => false) then
        let p := takeItems rest
        (jsSet out key (.arr (p.1.map .str)), p.2)
      else (jsSet out key (classifyScalar val), rest)

/-- The `while` loop of `parseYamlLike`.  Every iteration consumes at least
the head line, so `fuel` initialised to the number of lines is enough; the
claims below are proved for every fuel, and the fuel-insensitivity at
sufficient fuel is itself proved (see the termination claim). -/
def parseGo : ℕ → List Chars → List (Chars × JSVal) → List (Chars × JSVal)
  | 0, _, out => out
  | _ + 1, [], out => out
  | fuel + 1, l :: rest, out =>
    let p := stepLine l rest out
    parseGo fuel p.2 p.1

/-- Model of `parseYamlLike` (src/main.ts lines 184-223). -/
def parseYamlLike (src : Chars) : List (Chars × JSVal) :=
  parseGo (jsSplitLines src).length (jsSplitLines src) []

/-- Keys of the resulting record. -/
def keysOf (m : List (Chars × JSVal)) : List Chars := m.map Prod.fst

/-- The tagged union of option values asserted by the specification:
string, number, boolean, array of strings, or 2-element numeric tuple. -/
def specUnionVal : JSVal → Bool
  | .str _ => true
  | .number _ => true
  | .bool _ => true
  | .arr xs =>
    xs.all (fun x => match x with | .str _ => true | _ => false) ||
      (match xs with
       | [.number _, .number _] => true
       | _ => false)
  | _ => false

mutual
/-- Model of an XML DOM tree: element nodes with attributes and children,
and text nodes. -/
inductive XmlNode where
  | elem (tag : Chars) (attrs : List (Chars × Chars)) (children : XmlNodeList)
  | text (s : Chars)
/-- Child lists of the XML DOM tree. -/
inductive XmlNodeList where
  | nil
  | cons (hd : XmlNode) (tl : XmlNodeList)
end

/-- Build a child list from a `List`. -/
def nodesOf : List XmlNode → XmlNodeList
  | [] => .nil
  | n :: ns => .cons n (nodesOf ns)

mutual
/-- Model of DOM `getElementsByTagName` searched from the document root:
all element nodes with the given tag, in document order (preorder). -/
def getElementsByTagName (tag : Chars) : XmlNode → List XmlNode
  | .elem t attrs cs =>
    (if t = tag then [XmlNode.elem t attrs cs] else []) ++ getElementsInList tag cs
  | .text _ => []
/-- Document-order collection over a child list. -/
def getElementsInList (tag : Chars) : XmlNodeList → List XmlNode
  | .nil => []
  | .cons n ns => getElementsByTagName tag n ++ getElementsInList tag ns
end

/-- Model of DOM `getAttribute`: the attribute's value, or null (`none`)
when the attribute is absent. -/
def getAttribute (name : Chars) : XmlNode → Option Chars
  | .elem _ attrs _ => (attrs.find? (fun a => a.1 == name)).map Prod.snd
  | .text _ => none

/-- Model of `pt.getAttribute(n) || "0"`: null and the empty string are
falsy, so both yield `"0"`. -/
def attrOr0 (o : Option Chars) : Chars :=
  match o with
  | none => "0".data
  | some s => if s.isEmpty then "0".data else s

/-- The `[lat, lon]` pair read from one `trkpt` element. -/
def latlonOf (pt : XmlNode) : JSNum × JSNum :=
  (jsParseFloat (attrOr0 (getAttribute "lat".data pt)),
   jsParseFloat (attrOr0 (getAttribute "lon".data pt)))

/-- The diagnostic emitted by the `catch` branch of `gpxToPolyline`. -/
def gpxErrLog : Chars := "gpxToPolyline parse error".data

/-- Model of `gpxToPolyline` (src/main.ts lines 240-256).  The DOM parser
collaborator is passed in as `domParse`; a thrown parse error is the
`Except.error` case and lands in the `catch` branch, which logs a
diagnostic and returns null.  A document with no `trkpt` element yields
null (without logging); otherwise the polyline's ordered coordinate list
is returned.  The second component is the list of logged diagnostics. -/
def gpxToPolyline (domParse : Chars → Except Unit XmlNode) (gpxText : Chars) :
    Option (List (JSNum × JSNum)) × List Chars :=
  match domParse gpxText with
  | .error _ => (none, [gpxErrLog])
  | .ok xml =>
    let trkpts := getElementsByTagName "trkpt".data xml
    if trkpts.isEmpty then (none, [])
    else (some (trkpts.map latlonOf), [])

/-- A `trkpt` element with the given attribute list. -/
def mkTrkpt (attrs : List (Chars × Chars)) : XmlNode :=
  .elem "trkpt".data attrs .nil

/-- Concrete GPX document: one `trk` with two `trkseg` blocks holding three
and two `trkpt` elements respectively, with distinct coordinates. -/
def twoSegDoc : XmlNode :=
  .elem "gpx".data [] (nodesOf
    [ .elem "trk".data [] (nodesOf
        [ .elem "trkseg".data [] (nodesOf
            [ mkTrkpt [("lat".data, "1".data), ("lon".data, "10".data)]
            , mkTrkpt [("lat".data, "2".data), ("lon".data, "20".data)]
            , mkTrkpt [("lat".data, "3".data), ("lon".data, "30".data)] ])
        , .elem "trkseg".data [] (nodesOf
            [ mkTrkpt [("lat".data, "4".data), ("lon".data, "40".data)]
            , mkTrkpt [("lat".data, "5".data), ("lon".data, "50".data)] ]) ]) ])

/-- Concrete GPX document whose single `trkpt` has no `lon` attribute. -/
def missingLonDoc : XmlNode :=
  .elem "gpx".data [] (nodesOf
    [ .elem "trk".data [] (nodesOf
        [ .elem "trkseg".data [] (nodesOf
            [ mkTrkpt [("lat".data, "51.5".data)] ]) ]) ])

/-- Concrete GPX document whose single `trkpt` has a non-numeric `lat`. -/
def badLatDoc : XmlNode :=
  .elem "gpx".data [] (nodesOf
    [ mkTrkpt [("lat".data, "abc".data), ("lon".data, "1".data)] ])

/-- Concrete GPX document with no `trkpt` element at all. -/
def emptyGpxDoc : XmlNode :=
  .elem "gpx".data [] (nodesOf [.elem "trk".data [] .nil])

/-- Concrete GPX document with one `trkpt` directly under the root (outside
any `trk`/`trkseg`) followed by one nested under a `trk`. -/
def strayDoc : XmlNode :=
  .elem "gpx".data [] (nodesOf
    [ mkTrkpt [("lat".data, "9".data), ("lon".data, "90".data)]
    , .elem "trk".data [] (nodesOf
        [ mkTrkpt [("lat".data, "8".data), ("lon".data, "80".data)] ]) ])

/-! ### Helper lemmas -/

theorem keyChar_not_space {c : Char} (h : isKeyChar c = true) : isJsSpace c = false := by
  cases hs : isJsSpace c
  · rfl
  · simp only [isJsSpace, Bool.or_eq_true, beq_iff_eq] at hs
    rcases hs with ((((((((h1 | h1) | h1) | h1) | h1) | h1) | h1) | h1) | h1) | h1 <;>
      subst h1 <;> exact absurd h (by decide)

theorem matchEntry_key {line k v : Chars} (h : matchEntry line = some (k, v)) :
    k = line.takeWhile isKeyChar ∧ k ≠ [] := by
  simp only [matchEntry] at h
  split at h
  · split at h
    · exact absurd h (by simp)
    · split at h
      · exact absurd h (by simp)
      · rename_i hne _
        simp only [Option.some.injEq, Prod.mk.injEq] at h
        refine ⟨h.1.symm, ?_⟩
        rw [h.1] at hne
        simpa [List.isEmpty_iff] using hne
  · exact absurd h (by simp)

theorem matchEntry_head {line k v : Chars} (h : matchEntry line = some (k, v)) :
    ∃ c cs, line = c :: cs ∧ isKeyChar c = true := by
  obtain ⟨hk, hne⟩ := matchEntry_key h
  cases hl : line with
  | nil => subst hl; exact absurd hk (by simpa using hne)
  | cons c cs =>
    refine ⟨c, cs, rfl, ?_⟩
    cases hc : isKeyChar c
    · rw [hl] at hk
      simp [List.takeWhile_cons, hc] at hk
      exact absurd hk hne
    · rfl

theorem trimEndL_pref (l : Chars) : trimEndL l <+: l :=
  ⟨(l.reverse.takeWhile isJsSpace).reverse, by
    rw [trimEndL, ← List.reverse_append, List.takeWhile_append_dropWhile, List.reverse_reverse]⟩

theorem dropCR_pref (l : Chars) : dropCR l <+: l := by
  unfold dropCR
  split
  · rename_i hl
    have hne : l ≠ [] := by
      intro h
      rw [h] at hl
      exact absurd hl (by simp)
    exact ⟨[l.getLast hne], List.dropLast_append_getLast hne⟩
  · exact ⟨[], List.append_nil l⟩

theorem splitLinesGo_within {l : Chars} :
    ∀ (cs acc : Chars), l ∈ splitLinesGo cs acc → l <:+: (acc.reverse ++ cs) := by
  intro cs
  induction cs with
  | nil =>
    intro acc h
    simp only [splitLinesGo, List.mem_singleton] at h
    subst h
    exact ⟨[], [], by simp⟩
  | cons c cs ih =>
    intro acc h
    by_cases hc : c = '\n'
    · subst hc
      have h2 : l = dropCR acc.reverse ∨ l ∈ splitLinesGo cs [] := by
        simpa [splitLinesGo] using h
      rcases h2 with h | h
      · subst h
        obtain ⟨t, ht⟩ := dropCR_pref acc.reverse
        refine ⟨[], t ++ '\n' :: cs, ?_⟩
        show ([] ++ dropCR acc.reverse) ++ (t ++ '\n' :: cs) = acc.reverse ++ '\n' :: cs
        rw [List.nil_append, ← List.append_assoc, ht]
      · obtain ⟨s, t, hst⟩ := ih [] h
        simp only [List.reverse_nil, List.nil_append] at hst
        refine ⟨acc.reverse ++ '\n' :: s, t, ?_⟩
        rw [← hst]
        simp [List.append_assoc]
    · have h2 : l ∈ splitLinesGo cs (c :: acc) := by
        simpa only [splitLinesGo, if_neg hc] using h
      obtain ⟨s, t, hst⟩ := ih (c :: acc) h2
      refine ⟨s, t, ?_⟩
      simpa using hst

theorem jsSet_keys {out : List (Chars × JSVal)} {k v} {k' : Chars}
    (h : k' ∈ keysOf (jsSet out k v)) : k' ∈ keysOf out ∨ k' = k := by
  unfold jsSet at h
  split at h
  · simp only [keysOf, List.map_map, List.mem_map] at h
    obtain ⟨kv, hkv, hk'⟩ := h
    by_cases hc : kv.1 = k
    · right
      simp only [Function.comp, if_pos hc] at hk'
      exact hk'.symm
    · left
      simp only [Function.comp, if_neg hc] at hk'
      exact List.mem_map.mpr ⟨kv, hkv, hk'⟩
  · simp only [keysOf, List.map_append, List.mem_append, List.map_cons, List.map_nil,
      List.mem_singleton] at h
    exact h

theorem jsSet_pairs {out : List (Chars × JSVal)} {k v} {p : Chars × JSVal}
    (h : p ∈ jsSet out k v) : p ∈ out ∨ p.2 = v := by
  unfold jsSet at h
  split at h
  · simp only [List.mem_map] at h
    obtain ⟨kv, hkv, hp⟩ := h
    by_cases hc : kv.1 = k
    · right
      rw [if_pos hc] at hp
      rw [← hp]
    · left
      rw [if_neg hc] at hp
      exact hp ▸ hkv
  · rcases List.mem_append.mp h with h | h
    · exact Or.inl h
    · right
      rw [List.mem_singleton.mp h]

theorem takeItems_suffix : ∀ ls : List Chars, (takeItems ls).2 <:+ ls := by
  intro ls
  induction ls with
  | nil => exact ⟨[], rfl⟩
  | cons l ls ih =>
    unfold takeItems
    split
    · exact ⟨[], rfl⟩
    · obtain ⟨s, hs⟩ := ih
      exact ⟨l :: s, by rw [List.cons_append, hs]⟩

theorem stepLine_rest_suffix (l : Chars) (rest : List Chars) (out : List (Chars × JSVal)) :
    (stepLine l rest out).2 <:+ rest := by
  simp only [stepLine]
  split
  · exact ⟨[], rfl⟩
  · split
    · exact ⟨[], rfl⟩
    · split
      · exact takeItems_suffix rest
      · exact ⟨[], rfl⟩

theorem stepLine_keys {l : Chars} {rest : List Chars} {out : List (Chars × JSVal)} {k : Chars}
    (h : k ∈ keysOf (stepLine l rest out).1) :
    k ∈ keysOf out ∨ ∃ v, matchEntry (trimEndL l) = some (k, v) := by
  revert h
  simp only [stepLine]
  split
  · exact fun h => Or.inl h
  · split
    · exact fun h => Or.inl h
    · rename_i key val hm
      split
      · intro h
        rcases jsSet_keys h with h | h
        · exact Or.inl h
        · exact Or.inr ⟨val, h ▸ hm⟩
      · intro h
        rcases jsSet_keys h with h | h
        · exact Or.inl h
        · exact Or.inr ⟨val, h ▸ hm⟩

theorem stepLine_skip {l : Chars} (rest : List Chars) (out : List (Chars × JSVal))
    (h : matchEntry (trimEndL l) = none) : stepLine l rest out = (out, rest) := by
  simp only [stepLine]
  split
  · rfl
  · split
    · rfl
    · rename_i key val hm
      rw [h] at hm
      exact absurd hm (by simp)

theorem parseGo_nil : ∀ (fuel : ℕ) (out : List (Chars × JSVal)), parseGo fuel [] out = out := by
  intro fuel out
  cases fuel <;> rfl

theorem parseGo_keys :
    ∀ (fuel : ℕ) (ls : List Chars) (out : List (Chars × JSVal)) (k : Chars),
      k ∈ keysOf (parseGo fuel ls out) →
      k ∈ keysOf out ∨ ∃ l ∈ ls, ∃ v, matchEntry (trimEndL l) = some (k, v) := by
  intro fuel
  induction fuel with
  | zero => exact fun ls out k h => Or.inl h
  | succ fuel ih =>
    intro ls out k h
    cases ls with
    | nil => exact Or.inl (by simpa [parseGo_nil] using h)
    | cons l rest =>
      have h2 : k ∈ keysOf (parseGo fuel (stepLine l rest out).2 (stepLine l rest out).1) := by
        simpa [parseGo] using h
      rcases ih _ _ _ h2 with h3 | ⟨l', hl', v, hv⟩
      · rcases stepLine_keys h3 with h4 | ⟨v, hv⟩
        · exact Or.inl h4
        · exact Or.inr ⟨l, List.mem_cons_self l rest, v, hv⟩
      · have hmem : l' ∈ rest := (stepLine_rest_suffix l rest out).subset hl'
        exact Or.inr ⟨l', List.mem_cons_of_mem l hmem, v, hv⟩

theorem jsonVal_bracket {fuel : ℕ} {r : Chars} {v : JSVal} {rest : Chars}
    (h : jsonVal (fuel + 1) ('[' :: r) = some (v, rest)) : ∃ xs, v = JSVal.arr xs := by
  have h' : (match skipWs r with
      | ']' :: rest2 => some (JSVal.arr [], rest2)
      | r1 =>
        match jsonElems fuel r1 with
        | some (xs, rest2) => some (JSVal.arr xs, rest2)
        | none => none) = some (v, rest) := h
  split at h'
  · simp only [Option.some.injEq, Prod.mk.injEq] at h'
    exact ⟨[], h'.1.symm⟩
  · split at h'
    · rename_i xs rest2 _
      simp only [Option.some.injEq, Prod.mk.injEq] at h'
      exact ⟨xs, h'.1.symm⟩
    · exact absurd h' (by simp)

theorem nonJsonWs_space_val {fuel : ℕ} {c : Char} {r : Chars}
    (hs : isJsSpace c = true) (hw : isJsonWs c = false) :
    jsonVal fuel (c :: r) = none := by
  cases fuel with
  | zero => rfl
  | succ fuel =>
    simp only [isJsSpace, Bool.or_eq_true, beq_iff_eq] at hs
    rcases hs with ((((((((h1 | h1) | h1) | h1) | h1) | h1) | h1) | h1) | h1) | h1 <;>
      subst h1 <;> first
        | exact absurd hw (by decide)
        | rfl

theorem jsonVal_skipWs_bracket {fuel : ℕ} {s : Chars}
    (h : (s.dropWhile isJsSpace).head? = some '[') :
    jsonVal fuel (skipWs s) = none ∨
      ∃ xs rest, jsonVal fuel (skipWs s) = some (JSVal.arr xs, rest) := by
  induction s with
  | nil => exact absurd h (by simp)
  | cons c r ih =>
    by_cases hs : isJsSpace c = true
    · by_cases hw : isJsonWs c = true
      · have h1 : (r.dropWhile isJsSpace).head? = some '[' := by
          simpa [List.dropWhile_cons, hs] using h
        have h2 : skipWs (c :: r) = skipWs r := by
          unfold skipWs
          rw [List.dropWhile_cons, if_pos hw]
        rw [h2]
        exact ih h1
      · have h2 : skipWs (c :: r) = c :: r := by
          unfold skipWs
          rw [List.dropWhile_cons, if_neg hw]
        rw [h2]
        exact Or.inl (nonJsonWs_space_val hs (Bool.eq_false_iff.mpr hw))
    · have hc : c = '[' := by
        rw [List.dropWhile_cons, if_neg hs] at h
        simpa using h
      subst hc
      have h2 : skipWs ('[' :: r) = '[' :: r := by
        unfold skipWs
        rw [List.dropWhile_cons, if_neg (by decide)]
      rw [h2]
      cases fuel with
      | zero => exact Or.inl rfl
      | succ fuel =>
        cases hv : jsonVal (fuel + 1) ('[' :: r) with
        | none => exact Or.inl rfl
        | some p =>
          obtain ⟨v1, rest1⟩ := p
          obtain ⟨xs, hxs⟩ := jsonVal_bracket hv
          subst hxs
          exact Or.inr ⟨xs, rest1, rfl⟩

theorem squot_space (c : Char) : isJsSpace (squot c) = isJsSpace c := by
  unfold squot
  split
  · rename_i hc
    subst hc
    decide
  · rfl

theorem dropWhile_map_squot :
    ∀ val : Chars, (val.map squot).dropWhile isJsSpace = (val.dropWhile isJsSpace).map squot := by
  intro val
  induction val with
  | nil => rfl
  | cons c r ih =>
    by_cases hc : isJsSpace c = true
    · rw [List.map_cons, List.dropWhile_cons, List.dropWhile_cons, if_pos hc,
        if_pos (squot_space c ▸ hc), ih]
    · rw [List.map_cons, List.dropWhile_cons, List.dropWhile_cons, if_neg hc,
        if_neg (squot_space c ▸ hc), List.map_cons]

theorem bracketForm_head {s : Chars} (h : bracketForm s = true) : ∃ cs, s = '[' :: cs := by
  unfold bracketForm at h
  split at h
  · rename_i heq
    exact ⟨_, rfl⟩
  · exact absurd h (by simp)

theorem trimL_drop_head {val : Chars} {cs : Chars} (h : trimL val = '[' :: cs) :
    (val.dropWhile isJsSpace).head? = some '[' := by
  obtain ⟨t, ht⟩ := trimEndL_pref (trimStartL val)
  rw [trimL] at h
  rw [h] at ht
  rw [trimStartL] at ht
  rw [← ht]
  rfl

theorem jsonParse_bracket {val : Chars} (h : bracketForm (trimL val) = true) :
    jsonParse (val.map squot) = none ∨
      ∃ xs, jsonParse (val.map squot) = some (JSVal.arr xs) := by
  obtain ⟨cs, hcs⟩ := bracketForm_head h
  have h1 : (val.dropWhile isJsSpace).head? = some '[' := trimL_drop_head hcs
  have h2 : ((val.map squot).dropWhile isJsSpace).head? = some '[' := by
    rw [dropWhile_map_squot]
    cases hd : val.dropWhile isJsSpace with
    | nil => rw [hd] at h1; exact absurd h1 (by simp)
    | cons d ds =>
      rw [hd] at h1
      simp only [List.head?_cons, Option.some.injEq] at h1
      subst h1
      rfl
  rcases @jsonVal_skipWs_bracket ((val.map squot).length + 1) (val.map squot) h2 with
    h3 | ⟨xs, rest, h3⟩
  · left
    unfold jsonParse
    rw [h3]
  · unfold jsonParse
    rw [h3]
    by_cases hr : skipWs rest = []
    · refine Or.inr ⟨xs, ?_⟩
      show (if skipWs rest = [] then some (JSVal.arr xs) else none) = some (JSVal.arr xs)
      rw [if_pos hr]
    · refine Or.inl ?_
      show (if skipWs rest = [] then some (JSVal.arr xs) else none) = none
      rw [if_neg hr]

theorem classifyScalar_shape (val : Chars) :
    (∃ s, classifyScalar val = JSVal.str s) ∨
    (∃ n, classifyScalar val = JSVal.number n) ∨
    (∃ b, classifyScalar val = JSVal.bool b) ∨
    (∃ xs, classifyScalar val = JSVal.arr xs) := by
  unfold classifyScalar
  split
  · rename_i hbr
    rcases jsonParse_bracket hbr with hn | ⟨xs, hx⟩
    · rw [hn]
      exact Or.inl ⟨val, rfl⟩
    · rw [hx]
      exact Or.inr (Or.inr (Or.inr ⟨xs, rfl⟩))
  · split
    · exact Or.inr (Or.inr (Or.inl ⟨true, rfl⟩))
    · split
      · exact Or.inr (Or.inr (Or.inl ⟨false, rfl⟩))
      · split
        · exact Or.inl ⟨trimL val, rfl⟩
        · exact Or.inr (Or.inl ⟨_, rfl⟩)

theorem classifyScalar_bool {v : Chars} {b : Bool} (h : classifyScalar v = JSVal.bool b) :
    (v = "true".data ∧ b = true) ∨ (v = "false".data ∧ b = false) := by
  revert h
  unfold classifyScalar
  split
  · rename_i hbr
    rcases jsonParse_bracket hbr with hn | ⟨xs, hx⟩
    · rw [hn]
      exact fun h => absurd h (fun hh => JSVal.noConfusion hh)
    · rw [hx]
      exact fun h => absurd h (fun hh => JSVal.noConfusion hh)
  · split
    · rename_i ht
      intro h
      obtain hb := JSVal.bool.inj h
      exact Or.inl ⟨ht, hb.symm⟩
    · split
      · rename_i ht
        intro h
        obtain hb := JSVal.bool.inj h
        exact Or.inr ⟨ht, hb.symm⟩
      · split
        · exact fun h => absurd h (fun hh => JSVal.noConfusion hh)
        · exact fun h => absurd h (fun hh => JSVal.noConfusion hh)

theorem stepLine_pairs {l : Chars} {rest : List Chars} {out : List (Chars × JSVal)}
    {p : Chars × JSVal} (h : p ∈ (stepLine l rest out).1) :
    p ∈ out ∨
      (∃ s, p.2 = JSVal.str s) ∨ (∃ n, p.2 = JSVal.number n) ∨
      (∃ b, p.2 = JSVal.bool b) ∨ (∃ xs, p.2 = JSVal.arr xs) := by
  revert h
  simp only [stepLine]
  split
  · exact fun h => Or.inl h
  · split
    · exact fun h => Or.inl h
    · rename_i key val hm
      split
      · intro h
        rcases jsSet_pairs h with h | h
        · exact Or.inl h
        · exact Or.inr (Or.inr (Or.inr (Or.inr ⟨_, h⟩)))
      · intro h
        rcases jsSet_pairs h with h | h
        · exact Or.inl h
        · rcases classifyScalar_shape val with ⟨s, hs⟩ | ⟨n, hn⟩ | ⟨b, hb⟩ | ⟨xs, hx⟩
          · exact Or.inr (Or.inl ⟨s, h ▸ hs⟩)
          · exact Or.inr (Or.inr (Or.inl ⟨n, h ▸ hn⟩))
          · exact Or.inr (Or.inr (Or.inr (Or.inl ⟨b, h ▸ hb⟩)))
          · exact Or.inr (Or.inr (Or.inr (Or.inr ⟨xs, h ▸ hx⟩)))

theorem parseGo_pairs :
    ∀ (fuel : ℕ) (ls : List Chars) (out : List (Chars × JSVal)) (p : Chars × JSVal),
      p ∈ parseGo fuel ls out →
      p ∈ out ∨
        (∃ s, p.2 = JSVal.str s) ∨ (∃ n, p.2 = JSVal.number n) ∨
        (∃ b, p.2 = JSVal.bool b) ∨ (∃ xs, p.2 = JSVal.arr xs) := by
  intro fuel
  induction fuel with
  | zero => exact fun ls out p h => Or.inl h
  | succ fuel ih =>
    intro ls out p h
    cases ls with
    | nil => exact Or.inl (by simpa [parseGo_nil] using h)
    | cons l rest =>
      have h2 : p ∈ parseGo fuel (stepLine l rest out).2 (stepLine l rest out).1 := by
        simpa [parseGo] using h
      rcases ih _ _ _ h2 with h3 | h3
      · exact stepLine_pairs h3
      · exact Or.inr h3

theorem parseGo_allskip :
    ∀ (fuel : ℕ) (ls : List Chars) (out : List (Chars × JSVal)),
      (∀ l ∈ ls, matchEntry (trimEndL l) = none) → parseGo fuel ls out = out := by
  intro fuel
  induction fuel with
  | zero => exact fun ls out _ => rfl
  | succ fuel ih =>
    intro ls out hall
    cases ls with
    | nil => rfl
    | cons l rest =>
      have hstep : stepLine l rest out = (out, rest) :=
        stepLine_skip rest out (hall l (List.mem_cons_self l rest))
      calc parseGo (fuel + 1) (l :: rest) out
          = parseGo fuel (stepLine l rest out).2 (stepLine l rest out).1 := rfl
        _ = parseGo fuel rest out := by rw [hstep]
        _ = out := ih rest out (fun l' hl' => hall l' (List.mem_cons_of_mem l hl'))

theorem parseGo_fuel :
    ∀ (fuel fuel' : ℕ) (ls : List Chars) (out : List (Chars × JSVal)),
      ls.length ≤ fuel → ls.length ≤ fuel' →
      parseGo fuel ls out = parseGo fuel' ls out := by
  intro fuel
  induction fuel with
  | zero =>
    intro fuel' ls out h h'
    rw [List.length_eq_zero.mp (Nat.le_zero.mp h)]
    rw [parseGo_nil, parseGo_nil]
  | succ fuel ih =>
    intro fuel' ls out h h'
    cases ls with
    | nil => rw [parseGo_nil, parseGo_nil]
    | cons l rest =>
      cases fuel' with
      | zero => exact absurd h' (by simp)
      | succ fuel' =>
        have hlen : (stepLine l rest out).2.length ≤ rest.length :=
          (stepLine_rest_suffix l rest out).length_le
        have h1 : (stepLine l rest out).2.length ≤ fuel :=
          le_trans hlen (Nat.le_of_succ_le_succ (by simpa using h))
        have h2 : (stepLine l rest out).2.length ≤ fuel' :=
          le_trans hlen (Nat.le_of_succ_le_succ (by simpa using h'))
        calc parseGo (fuel + 1) (l :: rest) out
            = parseGo fuel (stepLine l rest out).2 (stepLine l rest out).1 := rfl
          _ = parseGo fuel' (stepLine l rest out).2 (stepLine l rest out).1 :=
              ih fuel' _ _ h1 h2
          _ = parseGo (fuel' + 1) (l :: rest) out := rfl

theorem pref_infix_trans {a b t : Chars} (h1 : a <+: b) (h2 : b <:+: t) : a <:+: t := by
  obtain ⟨u, hu⟩ := h1
  obtain ⟨s, t2, hst⟩ := h2
  refine ⟨s, u ++ t2, ?_⟩
  rw [← hst, ← hu]
  simp [List.append_assoc]

theorem stepLine_entry {l : Chars} {k v : Chars} (rest : List Chars)
    (out : List (Chars × JSVal)) (hm : matchEntry (trimEndL l) = some (k, v)) :
    stepLine l rest out =
      if v.isEmpty && (match rest with | nl :: _ => listItemStart nl | [] => false) then
        (jsSet out k (JSVal.arr ((takeItems rest).1.map JSVal.str)), (takeItems rest).2)
      else (jsSet out k (classifyScalar v), rest) := by
  obtain ⟨c, cs, hline, hkey⟩ := matchEntry_head hm
  have hns : isJsSpace c = false := keyChar_not_space hkey
  have hnh : (c == '#') = false := by
    have : c ≠ '#' := fun hcc => absurd (hcc ▸ hkey) (by decide)
    simp [this]
  have ht : trimStartL (c :: cs) = c :: cs := by
    unfold trimStartL
    rw [List.dropWhile_cons, if_neg (by simp [hns])]
  rw [hline] at hm
  simp only [stepLine, hline, hm, ht, List.isEmpty_cons, List.headD_cons, Bool.false_or, hnh,
    Bool.false_eq_true, if_false]

/-! ### Claim theorems -/

/-- C1 (counterexample): on the input `"k:\n"` — an entry line with empty
value whose following line is not a list item — `parseYamlLike` binds the
key to the JavaScript number 0 (`Number("") === 0`), which is not the empty
string the claim asserts. -/
theorem claim_C1_counterexample :
    parseYamlLike "k:\n".data = [("k".data, JSVal.number (JSNum.fin 0))] ∧
    JSVal.number (JSNum.fin 0) ≠ JSVal.str [] :=
  ⟨rfl, fun h => JSVal.noConfusion h⟩

/-- C1 (amended): an entry line whose value portion is empty and whose
following line is not a list-item line binds its key to the JavaScript
number 0 (because `Number("") === 0` wins the numeric test), not to the
empty string; the key is present, not deleted. -/
theorem claim_C1 :
    (∀ (l : Chars) (rest : List Chars) (out : List (Chars × JSVal)) (k : Chars),
        matchEntry (trimEndL l) = some (k, []) →
        (match rest with
         | nl :: _ => listItemStart nl = false
         | [] => True) →
        stepLine l rest out = (jsSet out k (JSVal.number (JSNum.fin 0)), rest)) ∧
    parseYamlLike "k:\n".data = [("k".data, JSVal.number (JSNum.fin 0))] := by
  constructor
  · intro l rest out k hm hrest
    rw [stepLine_entry rest out hm]
    cases rest with
    | nil => rfl
    | cons nl rest2 =>
      have hni : listItemStart nl = false := hrest
      rw [if_neg (by simp [hni])]
      rfl
  · rfl

/-- C2 (counterexample): a `trkpt` whose `lat` attribute is the non-numeric
string `"abc"` yields latitude NaN (`parseFloat("abc")` is NaN), not 0 as
the claim asserts; extraction still succeeds. -/
theorem claim_C2_counterexample :
    gpxToPolyline (fun _ => Except.ok badLatDoc) [] =
      (some [(JSNum.nan, JSNum.fin (mkRat 1 1))], []) ∧
    JSNum.nan ≠ JSNum.fin 0 :=
  ⟨rfl, by decide⟩

/-- C2 (amended): a missing attribute (DOM `getAttribute` returns null) or
an empty-string attribute falls to `"0"` through `|| "0"` and parses to 0;
a non-numeric attribute such as `"abc"` parses to NaN, not 0; in
particular a `trkpt` missing its `lon` attribute gets longitude 0 and
extraction succeeds (no error value, a coordinate list is returned). -/
theorem claim_C2 :
    (∀ o : Option Chars, o = none ∨ o = some [] → jsParseFloat (attrOr0 o) = JSNum.fin 0) ∧
    jsParseFloat "abc".data = JSNum.nan ∧
    gpxToPolyline (fun _ => Except.ok missingLonDoc) [] =
      (some [(JSNum.fin (mkRat 103 2), JSNum.fin 0)], []) := by
  refine ⟨?_, rfl, rfl⟩
  intro o ho
  rcases ho with ho | ho <;> subst ho <;> rfl

/-- C2 witness: the first clause of the amended claim applied at a missing
attribute. -/
theorem claim_C2_witness : jsParseFloat (attrOr0 none) = JSNum.fin 0 :=
  claim_C2.1 none (Or.inl rfl)

/-- C3: `parseYamlLike` is a total function over arbitrary text: the model
is fuel-insensitive at sufficient fuel (the loop terminates with this
value), and a text all of whose lines fail the entry pattern parses to the
empty record rather than failing. -/
theorem claim_C3 (t : Chars) :
    ∃ m, parseYamlLike t = m ∧
      (∀ fuel, (jsSplitLines t).length ≤ fuel → parseGo fuel (jsSplitLines t) [] = m) ∧
      ((∀ l ∈ jsSplitLines t, matchEntry (trimEndL l) = none) → m = []) :=
  ⟨parseYamlLike t, rfl,
   fun fuel hf => parseGo_fuel fuel (jsSplitLines t).length (jsSplitLines t) [] hf (le_refl _),
   fun hall => parseGo_allskip (jsSplitLines t).length (jsSplitLines t) [] hall⟩

/-- C3 witness: the theorem applied at a concrete text of malformed lines. -/
theorem claim_C3_witness : parseYamlLike "??? not an entry\n".data = [] := by
  obtain ⟨m, hm, _, hall⟩ := claim_C3 "??? not an entry\n".data
  rw [hm]
  exact hall (by decide)

/-- C4: every key of the record returned by `parseYamlLike` occurs
textually in the input (it is a contiguous substring of it). -/
theorem claim_C4 (t k : Chars) (h : k ∈ keysOf (parseYamlLike t)) : k <:+: t := by
  rcases parseGo_keys (jsSplitLines t).length (jsSplitLines t) [] k h with h2 | ⟨l, hl, v, hv⟩
  · exact absurd h2 (by simp [keysOf])
  · obtain ⟨hk, _⟩ := matchEntry_key hv
    have h3 : k <+: trimEndL l :=
      ⟨(trimEndL l).dropWhile isKeyChar, by rw [hk]; exact List.takeWhile_append_dropWhile ..⟩
    have h4 : k <+: l := h3.trans (trimEndL_pref l)
    exact pref_infix_trans h4 (splitLinesGo_within t [] hl)

/-- C4 witness: the theorem applied at a concrete input. -/
theorem claim_C4_witness : "zoom".data <:+: "zoom: 12\n".data :=
  claim_C4 "zoom: 12\n".data "zoom".data (by decide)

/-- C1 witness: the step of the loop applied at a concrete empty-valued
entry line with no following line. -/
theorem claim_C1_witness :
    stepLine "k:".data [] [] = (jsSet [] "k".data (JSVal.number (JSNum.fin 0)), []) :=
  claim_C1.1 "k:".data [] [] "k".data (by decide) trivial

/-- C5 (counterexample): on a document with zero `trkpt` elements the
extractor returns null but logs nothing — the log component is empty, so
no diagnostic is sent to the logging collaborator, contrary to the claim. -/
theorem claim_C5_counterexample :
    gpxToPolyline (fun _ => Except.ok emptyGpxDoc) [] = (none, ([] : List Chars)) ∧
    (∀ d : Chars, (gpxToPolyline (fun _ => Except.ok emptyGpxDoc) []).2 ≠ [d]) :=
  ⟨rfl, fun _ h => List.noConfusion h⟩

/-- C5 (amended): the extractor is total (no exception crosses its
boundary).  When the XML parser collaborator throws, the catch branch
returns null and logs one diagnostic; when parsing yields a document with
zero `trkpt` elements, it returns null silently (no diagnostic); otherwise
it returns the ordered, non-empty coordinate sequence. -/
theorem claim_C5 (domParse : Chars → Except Unit XmlNode) (t : Chars) :
    (∀ e, domParse t = Except.error e → gpxToPolyline domParse t = (none, [gpxErrLog])) ∧
    (∀ doc, domParse t = Except.ok doc → getElementsByTagName "trkpt".data doc = [] →
       gpxToPolyline domParse t = (none, [])) ∧
    (∀ doc, domParse t = Except.ok doc → getElementsByTagName "trkpt".data doc ≠ [] →
       ∃ pts, gpxToPolyline domParse t = (some pts, []) ∧ pts ≠ []) := by
  refine ⟨?_, ?_, ?_⟩
  · intro e hd
    unfold gpxToPolyline
    rw [hd]
  · intro doc hd hempty
    unfold gpxToPolyline
    rw [hd]
    simp [hempty]
  · intro doc hd hne
    refine ⟨(getElementsByTagName "trkpt".data doc).map latlonOf, ?_, by simpa using hne⟩
    unfold gpxToPolyline
    rw [hd]
    dsimp only
    rw [if_neg (fun hh => hne (List.isEmpty_iff.mp hh))]

/-- C5 witness: a thrown XML parse error yields null plus one logged
diagnostic. -/
theorem claim_C5_witness :
    gpxToPolyline (fun _ => Except.error ()) [] = (none, [gpxErrLog]) :=
  (claim_C5 (fun _ => Except.error ()) []).1 () rfl

/-- C6: whenever the document holds at least one `trkpt`, the extractor
returns exactly the document-order (`getElementsByTagName`, preorder)
collection of all `trkpt` elements mapped to their coordinates; on the
concrete document with one `trk` holding two `trkseg` blocks of three and
two points, the five points come out flattened in document order, and a
`trkpt` sitting outside any `trk`/`trkseg` is collected too. -/
theorem claim_C6 :
    (∀ (domParse : Chars → Except Unit XmlNode) (t : Chars) (doc : XmlNode),
        domParse t = Except.ok doc → getElementsByTagName "trkpt".data doc ≠ [] →
        gpxToPolyline domParse t =
          (some ((getElementsByTagName "trkpt".data doc).map latlonOf), [])) ∧
    gpxToPolyline (fun _ => Except.ok twoSegDoc) [] =
      (some [(JSNum.fin (mkRat 1 1), JSNum.fin (mkRat 10 1)),
             (JSNum.fin (mkRat 2 1), JSNum.fin (mkRat 20 1)),
             (JSNum.fin (mkRat 3 1), JSNum.fin (mkRat 30 1)),
             (JSNum.fin (mkRat 4 1), JSNum.fin (mkRat 40 1)),
             (JSNum.fin (mkRat 5 1), JSNum.fin (mkRat 50 1))], []) ∧
    (getElementsByTagName "trkpt".data twoSegDoc).length = 5 ∧
    gpxToPolyline (fun _ => Except.ok strayDoc) [] =
      (some [(JSNum.fin (mkRat 9 1), JSNum.fin (mkRat 90 1)),
             (JSNum.fin (mkRat 8 1), JSNum.fin (mkRat 80 1))], []) := by
  refine ⟨?_, rfl, rfl, rfl⟩
  intro domParse t doc hd hne
  unfold gpxToPolyline
  rw [hd]
  dsimp only
  rw [if_neg (fun hh => hne (List.isEmpty_iff.mp hh))]

/-- C6 witness: the general clause applied at the concrete two-segment
document. -/
theorem claim_C6_witness :
    gpxToPolyline (fun _ => Except.ok twoSegDoc) "x".data =
      (some ((getElementsByTagName "trkpt".data twoSegDoc).map latlonOf), []) :=
  claim_C6.1 (fun _ => Except.ok twoSegDoc) "x".data twoSegDoc rfl (List.cons_ne_nil _ _)

/-- C7 (counterexample): the bracketed value `[1, 2, 3]` is stored as a
three-element numeric JSON array, which is neither a string array nor a
two-element numeric pair, so it falls outside the claimed tagged union
`String | Number | Boolean | StringArray | NumberPair`. -/
theorem claim_C7_counterexample :
    parseYamlLike "a: [1, 2, 3]\n".data =
      [("a".data, JSVal.arr [JSVal.number (JSNum.fin (mkRat 1 1)),
                             JSVal.number (JSNum.fin (mkRat 2 1)),
                             JSVal.number (JSNum.fin (mkRat 3 1))])] ∧
    specUnionVal (JSVal.arr [JSVal.number (JSNum.fin (mkRat 1 1)),
                             JSVal.number (JSNum.fin (mkRat 2 1)),
                             JSVal.number (JSNum.fin (mkRat 3 1))]) = false :=
  ⟨rfl, rfl⟩

/-- C7 (amended): every value stored by `parseYamlLike` is a string, a
number, a boolean, or an array — where block arrays are arrays of strings,
and bracketed values admit any JSON array (not only string arrays and
numeric pairs). -/
theorem claim_C7 (t : Chars) (p : Chars × JSVal) (h : p ∈ parseYamlLike t) :
    (∃ s, p.2 = JSVal.str s) ∨ (∃ n, p.2 = JSVal.number n) ∨
    (∃ b, p.2 = JSVal.bool b) ∨ (∃ xs, p.2 = JSVal.arr xs) := by
  rcases parseGo_pairs (jsSplitLines t).length (jsSplitLines t) [] p h with h2 | h2
  · exact absurd h2 (by simp)
  · exact h2

/-- C7 witness: the theorem applied at the record produced from a concrete
bracketed numeric value. -/
theorem claim_C7_witness :
    (∃ s, (JSVal.arr [JSVal.number (JSNum.fin (mkRat 1 1)),
                      JSVal.number (JSNum.fin (mkRat 2 1)),
                      JSVal.number (JSNum.fin (mkRat 3 1))]) = JSVal.str s) ∨
    (∃ n, (JSVal.arr [JSVal.number (JSNum.fin (mkRat 1 1)),
                      JSVal.number (JSNum.fin (mkRat 2 1)),
                      JSVal.number (JSNum.fin (mkRat 3 1))]) = JSVal.number n) ∨
    (∃ b, (JSVal.arr [JSVal.number (JSNum.fin (mkRat 1 1)),
                      JSVal.number (JSNum.fin (mkRat 2 1)),
                      JSVal.number (JSNum.fin (mkRat 3 1))]) = JSVal.bool b) ∨
    (∃ xs, (JSVal.arr [JSVal.number (JSNum.fin (mkRat 1 1)),
                       JSVal.number (JSNum.fin (mkRat 2 1)),
                       JSVal.number (JSNum.fin (mkRat 3 1))]) = JSVal.arr xs) :=
  claim_C7 "a: [1, 2, 3]\n".data
    ("a".data, JSVal.arr [JSVal.number (JSNum.fin (mkRat 1 1)),
                          JSVal.number (JSNum.fin (mkRat 2 1)),
                          JSVal.number (JSNum.fin (mkRat 3 1))])
    (by
      show _ ∈ parseYamlLike "a: [1, 2, 3]\n".data
      rw [show parseYamlLike "a: [1, 2, 3]\n".data =
        [("a".data, JSVal.arr [JSVal.number (JSNum.fin (mkRat 1 1)),
                               JSVal.number (JSNum.fin (mkRat 2 1)),
                               JSVal.number (JSNum.fin (mkRat 3 1))])] from rfl]
      exact List.mem_singleton.mpr rfl)

/-- C8: values that are exactly the unquoted lowercase tokens produce
booleans (`parse("flag: true\n")` and `parse("flag: false\n")`), the match
is case-sensitive (`True` is stored as a plain string), and `classifyScalar`
produces a boolean only for exactly `"true"` or `"false"`. -/
theorem claim_C8 :
    parseYamlLike "flag: true\n".data = [("flag".data, JSVal.bool true)] ∧
    parseYamlLike "flag: false\n".data = [("flag".data, JSVal.bool false)] ∧
    parseYamlLike "flag: True\n".data = [("flag".data, JSVal.str "True".data)] ∧
    (∀ (v : Chars) (b : Bool), classifyScalar v = JSVal.bool b →
      (v = "true".data ∧ b = true) ∨ (v = "false".data ∧ b = false)) :=
  ⟨rfl, rfl, rfl, fun _ _ h => classifyScalar_bool h⟩

/-- C8 witness: the exactness clause applied at the concrete value
`"true"`. -/
theorem claim_C8_witness :
    ("true".data = "true".data ∧ true = true) ∨ ("true".data = "false".data ∧ true = false) :=
  claim_C8.2.2.2 "true".data true rfl

/-- C9: a value whose trimmed form is bracketed is interpreted through
`JSON.parse` after single-quote normalisation, falling back to the raw
value string when that parse fails; the concrete block
`center: [51.3, 0.49]` parses to the numeric pair `[51.3, 0.49]`, and the
bracketed-but-invalid value `[1, ]` falls back to the raw string. -/
theorem claim_C9 :
    (∀ val : Chars, bracketForm (trimL val) = true →
       classifyScalar val = (match jsonParse (val.map squot) with
                             | some j => j
                             | none => JSVal.str val)) ∧
    parseYamlLike "center: [51.3, 0.49]\n".data =
      [("center".data, JSVal.arr [JSVal.number (JSNum.fin (mkRat 513 10)),
                                  JSVal.number (JSNum.fin (mkRat 49 100))])] ∧
    classifyScalar "[1, ]".data = JSVal.str "[1, ]".data := by
  refine ⟨?_, rfl, rfl⟩
  intro val h
  unfold classifyScalar
  rw [if_pos h]

/-- C9 witness: the bracket clause applied at the concrete value `[1]`. -/
theorem claim_C9_witness :
    classifyScalar "[1]".data = (match jsonParse ("[1]".data.map squot) with
                                 | some j => j
                                 | none => JSVal.str "[1]".data) :=
  claim_C9.1 "[1]".data rfl

/-- C10: every key produced by `parseYamlLike` originates from a line whose
first character is a key character (so no leading whitespace precedes the
key), and concrete indented entry lines are silently ignored. -/
theorem claim_C10 :
    (∀ (t k : Chars), k ∈ keysOf (parseYamlLike t) →
       ∃ l c cs, l ∈ jsSplitLines t ∧ l = c :: cs ∧ isKeyChar c = true ∧ isJsSpace c = false) ∧
    parseYamlLike "  zoom: 5\n".data = [] ∧
    parseYamlLike "\tzoom: 5\n".data = [] := by
  refine ⟨?_, rfl, rfl⟩
  intro t k h
  rcases parseGo_keys (jsSplitLines t).length (jsSplitLines t) [] k h with h2 | ⟨l, hl, v, hv⟩
  · exact absurd h2 (by simp [keysOf])
  · obtain ⟨c, cs, hline, hkey⟩ := matchEntry_head hv
    obtain ⟨u, hu⟩ := trimEndL_pref l
    rw [hline] at hu
    exact ⟨l, c, cs ++ u, hl, by rw [← hu]; rfl, hkey, keyChar_not_space hkey⟩

/-- C10 witness: the theorem applied at a concrete non-indented input. -/
theorem claim_C10_witness :
    ∃ l c cs, l ∈ jsSplitLines "zoom: 5\n".data ∧ l = c :: cs ∧
      isKeyChar c = true ∧ isJsSpace c = false :=
  claim_C10.1 "zoom: 5\n".data "zoom".data (by decide)
